import Mathlib

/-!
Verification of the parquet consolidator (Rust sources `src/main.rs`,
`src/consolidator.rs`) against its natural-language specification.

The development shallowly embeds the binary's implementation from
`src/main.rs` (the variant the specification's contracts describe: it
checks root existence, sorts the located files, and performs two-phase
validate-then-stream consolidation).  Paths are lists of components
(strings); the `walkdir` filesystem enumeration, an external dependency,
is modelled as the list of entries it yields, in enumeration order.
Parquet files are modelled by their schema and their list of record
batches, a batch being a list of rows; the row type is a parameter since
the consolidator never inspects row contents.
-/

namespace PQ

/-! ## Extension matching (`main.rs` lines 100-105, `is_parquet_file`) -/

/-- ASCII lowering of one character; Rust's `to_lowercase` restricted to
ASCII, which is all that the comparison against `"parquet"` can use. -/
def asciiLower (c : Char) : Char :=
  if 'A'.toNat ≤ c.toNat && c.toNat ≤ 'Z'.toNat then Char.ofNat (c.toNat + 32) else c

/-- Lower-case a string, character by character. -/
def lowerString (s : String) : String :=
  String.mk (s.toList.map asciiLower)

/-- Split a file name at its last dot: returns the parts before and after
the last `'.'`, or `none` when there is no dot.  Mirrors the recursion of
Rust's `rsplit_file_at_dot` (used by `Path::extension`). -/
def splitAtLastDot : List Char → Option (List Char × List Char)
  | [] => none
  | c :: cs =>
    match splitAtLastDot cs with
    | some (b, a) => some (c :: b, a)
    | none => if c == '.' then some ([], cs) else none

/-- Rust `Path::extension` on a single file-name component: the part after
the last dot, except that a name with no dot, a name whose only dot is the
leading character (hidden files), and the special name `".."` have no
extension. -/
def extension_of_name (name : String) : Option String :=
  if name == ".." then none
  else
    match splitAtLastDot name.toList with
    | none => none
    | some ([], _) => none
    | some (_ :: _, a) => some (String.mk a)

/-- A path is a list of components; its file name is its last component. -/
def path_extension (p : List String) : Option String :=
  match p.getLast? with
  | some n => extension_of_name n
  | none => none

/-- `main.rs` `is_parquet_file`: the extension, lower-cased, equals
`"parquet"`; `false` when the path has no extension. -/
def is_parquet_file (p : List String) : Bool :=
  match path_extension p with
  | some e => lowerString e == "parquet"
  | none => false

/-! ## Path ordering (Rust `Vec<PathBuf>::sort`) -/

/-- Three-way comparison of strings as character lists, by code point. -/
def cmpChars : List Char → List Char → Ordering
  | [], [] => .eq
  | [], _ :: _ => .lt
  | _ :: _, [] => .gt
  | a :: as, b :: bs =>
    if a.toNat < b.toNat then .lt
    else if b.toNat < a.toNat then .gt
    else cmpChars as bs

/-- Three-way comparison of paths: lexicographic over components, the
order Rust's `PathBuf: Ord` uses (component-wise comparison). -/
def cmpPath : List String → List String → Ordering
  | [], [] => .eq
  | [], _ :: _ => .lt
  | _ :: _, [] => .gt
  | s :: ss, t :: ts =>
    match cmpChars s.data t.data with
    | .eq => cmpPath ss ts
    | .lt => .lt
    | .gt => .gt

/-- Non-strict path order used for sorting. -/
def pathLe (p q : List String) : Bool :=
  cmpPath p q != Ordering.gt

/-- `parquet_files.sort()` of `main.rs` line 96: sort by the path order. -/
def sortPaths (l : List (List String)) : List (List String) :=
  List.insertionSort (fun p q => pathLe p q = true) l

/-! ## File locator (`main.rs` lines 67-98, `find_parquet_files`) -/

/-- One entry yielded by the `walkdir` traversal of the root directory:
its path relative to the root and whether it is a regular file.  Entries
whose read failed are skipped by the source (`filter_map(|e| e.ok())`), so
they simply do not appear in the list. -/
structure DirEntry where
  relPath : List String
  isFile : Bool
deriving DecidableEq, Repr

/-- What the filesystem holds at the root path: nothing, a regular file, a
directory (with the `walkdir` enumeration of its subtree, in filesystem
enumeration order), or something that exists but is neither a regular file
nor a directory. -/
inductive RootNode where
  | missing : RootNode
  | file : RootNode
  | dir (entries : List DirEntry) : RootNode
  | special : RootNode
deriving DecidableEq, Repr

/-- Errors of `find_parquet_files`: the two `anyhow::bail!` sites at
`main.rs` lines 71 and 79. -/
inductive LocateError where
  | pathNotFound : LocateError
  | notTargetFormat : LocateError
deriving DecidableEq, Repr

/-- Decidable equality for `Except`, to evaluate locator and engine
results on concrete inputs. -/
instance {E A : Type} [DecidableEq E] [DecidableEq A] : DecidableEq (Except E A) :=
  fun x y =>
    match x, y with
    | .ok a, .ok b =>
      if h : a = b then isTrue (by rw [h]) else isFalse (fun he => by cases he; exact h rfl)
    | .error e, .error f =>
      if h : e = f then isTrue (by rw [h]) else isFalse (fun he => by cases he; exact h rfl)
    | .ok _, .error _ => isFalse (fun he => by cases he)
    | .error _, .ok _ => isFalse (fun he => by cases he)

/-- `main.rs` `find_parquet_files`.  The root path does not exist: error.
A regular file: singleton if it has the parquet extension, else error.  A
directory: walk it (`max_depth(1)` keeps entries of depth at most 1 when
not recursive), keep regular files whose path passes `is_parquet_file`,
and sort.  The final `parquet_files.sort()` applies on every success
path. -/
def find_parquet_files (rootPath : List String) (root : RootNode) (recursive : Bool) :
    Except LocateError (List (List String)) :=
  match root with
  | .missing => .error .pathNotFound
  | .file =>
    if is_parquet_file rootPath then .ok (sortPaths [rootPath])
    else .error .notTargetFormat
  | .dir entries =>
    let walked := if recursive then entries
      else entries.filter (fun e => decide (e.relPath.length ≤ 1))
    let collected := (walked.filter
        (fun e => e.isFile && is_parquet_file (rootPath ++ e.relPath))).map
      (fun e => rootPath ++ e.relPath)
    .ok (sortPaths collected)
  | .special => .ok (sortPaths [])

/-- The collected list of a directory walk, before sorting: the body of
the directory branch of `find_parquet_files`. -/
def collectParquet (rootPath : List String) (entries : List DirEntry) (recursive : Bool) :
    List (List String) :=
  let walked := if recursive then entries
    else entries.filter (fun e => decide (e.relPath.length ≤ 1))
  (walked.filter (fun e => e.isFile && is_parquet_file (rootPath ++ e.relPath))).map
    (fun e => rootPath ++ e.relPath)

/-! ## Schemas (`main.rs` lines 222-235, `schemas_compatible`) -/

/-- Arrow logical types, as far as this repository's data uses them; the
compatibility check only ever compares them for equality. -/
inductive DataType where
  | int32 : DataType
  | int64 : DataType
  | float64 : DataType
  | utf8 : DataType
  | boolean : DataType
  | date32 : DataType
deriving DecidableEq, Repr

/-- An Arrow field: name, logical type, nullability. -/
structure Field where
  name : String
  dataType : DataType
  nullable : Bool
deriving DecidableEq, Repr

/-- A schema is an ordered sequence of fields. -/
abbrev Schema := List Field

/-- `main.rs` `schemas_compatible`: equal field count, and at every
position equal name and equal logical type (nullability is not compared). -/
def schemas_compatible (schema1 schema2 : Schema) : Bool :=
  if schema1.length != schema2.length then false
  else (schema1.zip schema2).all
    (fun fp => fp.1.name == fp.2.name && fp.1.dataType == fp.2.dataType)

/-! ## Consolidation engine (`main.rs` lines 107-220) -/

/-- A parquet file as the engine observes it: its schema and its record
batches in reader order; a batch is a list of rows of type `α`. -/
structure ParquetFile (α : Type) where
  schema : Schema
  batches : List (List α)
deriving DecidableEq, Repr

/-- Errors of `consolidate_parquet_files`: the empty-input `bail!` at
`main.rs` line 113 and the schema-mismatch `bail!` at lines 176-179.  The
mismatch carries the 0-based position of the offending file in the input
list (the source message prints it 1-based, as `idx + 2` over the
enumeration of `skip(1)`), plus the expected and found schemas. -/
inductive ConsolidateError where
  | emptyInput : ConsolidateError
  | schemaMismatch (index : Nat) (expected found : Schema) : ConsolidateError
deriving DecidableEq, Repr

/-- The validation loop of `get_and_validate_schema` (`main.rs` lines
168-181) over the files after the first: stop at the first file whose
schema is not compatible with the canonical one.  `pos` is the 0-based
position in the full input list of the head of `files`. -/
def validate_rest (canonical : Schema) : List (ParquetFile α) → Nat → Except ConsolidateError Unit
  | [], _ => .ok ()
  | f :: fs, pos =>
    if schemas_compatible canonical f.schema then validate_rest canonical fs (pos + 1)
    else .error (.schemaMismatch pos canonical f.schema)

/-- `main.rs` `get_and_validate_schema`: the canonical schema is the first
file's; every remaining file is checked against it.  The source indexes
`input_files[0]` unconditionally — its caller has already rejected an
empty list — so the empty case is modelled as the empty-input error. -/
def get_and_validate_schema : List (ParquetFile α) → Except ConsolidateError Schema
  | [] => .error .emptyInput
  | f :: fs =>
    match validate_rest f.schema fs 1 with
    | .ok _ => .ok f.schema
    | .error e => .error e

/-- `main.rs` `process_single_file`: stream the file's batches in reader
order, appending each to the writer and accumulating the row count; the
returned pair is the extended writer contents and `rows_written`. -/
def process_single_file (f : ParquetFile α) (writer : List (List α)) :
    List (List α) × Nat :=
  f.batches.foldl (fun acc batch => (acc.1 ++ [batch], acc.2 + batch.length)) (writer, 0)

/-- The observable outcome of one `consolidate_parquet_files` run: the
function's return value, whether the output file was created
(`File::create` at line 120), the batches written to it, the schema the
writer was bound to, whether the writer was closed, and the `total_rows`
counter the source accumulates and prints under `verbose`. -/
structure ConsOutcome (α : Type) where
  result : Except ConsolidateError Unit
  outputCreated : Bool
  outputSchema : Option Schema
  outputBatches : List (List α)
  outputClosed : Bool
  totalRows : Nat
deriving Repr

/-- `main.rs` `consolidate_parquet_files`: reject empty input; validate
all schemas up front; only then create the output, stream every file's
batches through `process_single_file` in input order while summing
`total_rows`, and close the writer.  On any error no output file is
created and nothing is written. -/
def consolidate_parquet_files (input_files : List (ParquetFile α)) : ConsOutcome α :=
  if input_files.isEmpty then
    { result := .error .emptyInput, outputCreated := false, outputSchema := none,
      outputBatches := [], outputClosed := false, totalRows := 0 }
  else
    match get_and_validate_schema input_files with
    | .error e =>
      { result := .error e, outputCreated := false, outputSchema := none,
        outputBatches := [], outputClosed := false, totalRows := 0 }
    | .ok schema =>
      let final := input_files.foldl
        (fun acc f =>
          let r := process_single_file f acc.1
          (r.1, acc.2 + r.2))
        ([], 0)
      { result := .ok (), outputCreated := true, outputSchema := some schema,
        outputBatches := final.1, outputClosed := true, totalRows := final.2 }

/-- Total number of rows in a parquet file: the sum of its batch sizes. -/
def rowCount (f : ParquetFile α) : Nat :=
  (f.batches.map List.length).sum

/-! ## Concrete values for evaluating the model

The schema is the repository's own test schema
`{id: int32, name: utf8, value: float64}` from `test_utils.rs`; the extra
column is the nullable `extra: utf8` of
`create_test_parquet_file_with_extra_column`. -/

/-- The three-field test schema. -/
def exSchema : Schema :=
  [⟨"id", .int32, false⟩, ⟨"name", .utf8, false⟩, ⟨"value", .float64, false⟩]

/-- The test schema with the added nullable `extra` column. -/
def exSchemaExtra : Schema :=
  exSchema ++ [⟨"extra", .utf8, true⟩]

/-- A file with 2 rows in one batch. -/
def exFileA : ParquetFile Nat := ⟨exSchema, [[0, 1]]⟩

/-- A file with 5 rows across two batches. -/
def exFileB : ParquetFile Nat := ⟨exSchema, [[2, 3, 4], [5, 6]]⟩

/-- A file whose schema has the added column. -/
def exFileExtra : ParquetFile Nat := ⟨exSchemaExtra, [[7]]⟩

/-- A directory enumeration with two parquet files, a subdirectory, a
nested parquet file and a non-parquet file. -/
def exEntries : List DirEntry :=
  [⟨["b.parquet"], true⟩, ⟨["sub"], false⟩, ⟨["sub", "c.parquet"], true⟩,
   ⟨["a.parquet"], true⟩, ⟨["n.txt"], true⟩]

/-- The same directory enumerated in a different filesystem order. -/
def exEntriesShuffled : List DirEntry :=
  [⟨["a.parquet"], true⟩, ⟨["n.txt"], true⟩, ⟨["sub", "c.parquet"], true⟩,
   ⟨["b.parquet"], true⟩, ⟨["sub"], false⟩]

/-! ## Properties of the path order -/

/-- Characters with equal code points are equal. -/
theorem char_eq_of_toNat_eq {c d : Char} (h : c.toNat = d.toNat) : c = d := by
  have h1 : Char.ofNat c.toNat = Char.ofNat d.toNat := congrArg Char.ofNat h
  rwa [Char.ofNat_toNat, Char.ofNat_toNat] at h1

/-- Strings with equal character lists are equal. -/
theorem string_eq_of_toList_eq {s t : String} (h : s.toList = t.toList) : s = t := by
  cases s; cases t; exact congrArg String.mk h

theorem cmpChars_eq_iff (a b : List Char) : cmpChars a b = .eq ↔ a = b := by
  induction a generalizing b with
  | nil => cases b <;> simp [cmpChars]
  | cons x xs ih =>
    cases b with
    | nil => simp [cmpChars]
    | cons y ys =>
      by_cases h1 : x.toNat < y.toNat
      · simp only [cmpChars, if_pos h1]
        constructor
        · intro h; cases h
        · intro h
          cases h
          omega
      · by_cases h2 : y.toNat < x.toNat
        · simp only [cmpChars, if_neg h1, if_pos h2]
          constructor
          · intro h; cases h
          · intro h
            cases h
            omega
        · have hxy : x = y := char_eq_of_toNat_eq (by omega)
          subst hxy
          simp only [cmpChars, if_neg h1, if_neg h2]
          rw [ih]
          simp

theorem cmpChars_swap (a b : List Char) : cmpChars b a = (cmpChars a b).swap := by
  induction a generalizing b with
  | nil => cases b <;> simp [cmpChars, Ordering.swap]
  | cons x xs ih =>
    cases b with
    | nil => simp [cmpChars, Ordering.swap]
    | cons y ys =>
      by_cases h1 : x.toNat < y.toNat
      · have h2 : ¬ y.toNat < x.toNat := by omega
        simp [cmpChars, if_pos h1, if_neg h2, Ordering.swap]
      · by_cases h2 : y.toNat < x.toNat
        · simp [cmpChars, if_pos h2, if_neg h1, Ordering.swap]
        · simp only [cmpChars, if_neg h1, if_neg h2]
          exact ih ys

theorem cmpChars_lt_trans {a b c : List Char}
    (hab : cmpChars a b = .lt) (hbc : cmpChars b c = .lt) : cmpChars a c = .lt := by
  induction a generalizing b c with
  | nil =>
    cases b with
    | nil => cases hab
    | cons y ys =>
      cases c with
      | nil => cases hbc
      | cons z zs => simp [cmpChars]
  | cons x xs ih =>
    cases b with
    | nil => cases hab
    | cons y ys =>
      cases c with
      | nil => cases hbc
      | cons z zs =>
        by_cases hxy : x.toNat < y.toNat
        · by_cases hyz : y.toNat < z.toNat
          · have : x.toNat < z.toNat := by omega
            simp [cmpChars, if_pos this]
          · by_cases hzy : z.toNat < y.toNat
            · rw [cmpChars, if_neg hyz, if_pos hzy] at hbc; cases hbc
            · have : x.toNat < z.toNat := by omega
              simp [cmpChars, if_pos this]
        · by_cases hyx : y.toNat < x.toNat
          · rw [cmpChars, if_neg hxy, if_pos hyx] at hab; cases hab
          · rw [cmpChars, if_neg hxy, if_neg hyx] at hab
            by_cases hyz : y.toNat < z.toNat
            · have : x.toNat < z.toNat := by omega
              simp [cmpChars, if_pos this]
            · by_cases hzy : z.toNat < y.toNat
              · rw [cmpChars, if_neg hyz, if_pos hzy] at hbc; cases hbc
              · rw [cmpChars, if_neg hyz, if_neg hzy] at hbc
                have h1 : ¬ x.toNat < z.toNat := by omega
                have h2 : ¬ z.toNat < x.toNat := by omega
                rw [cmpChars, if_neg h1, if_neg h2]
                exact ih hab hbc

/-- Strings with equal data lists are equal. -/
theorem string_eq_of_data_eq {s t : String} (h : s.data = t.data) : s = t := by
  cases s; cases t; exact congrArg String.mk h

theorem cmpPath_eq_iff (p q : List String) : cmpPath p q = .eq ↔ p = q := by
  induction p generalizing q with
  | nil => cases q <;> simp [cmpPath]
  | cons s ss ih =>
    cases q with
    | nil => simp [cmpPath]
    | cons t ts =>
      rcases hst : cmpChars s.data t.data with h | h | h
      · simp only [cmpPath, hst]
        constructor
        · intro h; cases h
        · intro h
          cases h
          rw [(cmpChars_eq_iff _ _).mpr rfl] at hst
          cases hst
      · have hstrings : s = t := string_eq_of_data_eq ((cmpChars_eq_iff _ _).mp hst)
        subst hstrings
        simp only [cmpPath, hst]
        rw [ih]
        simp
      · simp only [cmpPath, hst]
        constructor
        · intro h; cases h
        · intro h
          cases h
          rw [(cmpChars_eq_iff _ _).mpr rfl] at hst
          cases hst

theorem cmpPath_swap (p q : List String) : cmpPath q p = (cmpPath p q).swap := by
  induction p generalizing q with
  | nil => cases q <;> simp [cmpPath, Ordering.swap]
  | cons s ss ih =>
    cases q with
    | nil => simp [cmpPath, Ordering.swap]
    | cons t ts =>
      have hswap := cmpChars_swap s.data t.data
      rcases hst : cmpChars s.data t.data with h | h | h <;> rw [hst] at hswap
      · simp [cmpPath, hst, hswap, Ordering.swap]
      · simp only [cmpPath, hst, hswap]
        exact ih ts
      · simp [cmpPath, hst, hswap, Ordering.swap]

theorem cmpPath_lt_trans {p q r : List String}
    (hpq : cmpPath p q = .lt) (hqr : cmpPath q r = .lt) : cmpPath p r = .lt := by
  induction p generalizing q r with
  | nil =>
    cases q with
    | nil => cases hpq
    | cons t ts =>
      cases r with
      | nil => cases hqr
      | cons u us => simp [cmpPath]
  | cons s ss ih =>
    cases q with
    | nil => cases hpq
    | cons t ts =>
      cases r with
      | nil => cases hqr
      | cons u us =>
        rcases hst : cmpChars s.data t.data with h | h | h
        · rcases htu : cmpChars t.data u.data with h2 | h2 | h2
          · have : cmpChars s.data u.data = .lt := cmpChars_lt_trans hst htu
            simp [cmpPath, this]
          · have hteq : t = u := string_eq_of_data_eq ((cmpChars_eq_iff _ _).mp htu)
            subst hteq
            simp [cmpPath, hst]
          · rw [cmpPath, htu] at hqr; cases hqr
        · have hseq : s = t := string_eq_of_data_eq ((cmpChars_eq_iff _ _).mp hst)
          subst hseq
          rw [cmpPath, hst] at hpq
          rcases hsu : cmpChars s.data u.data with h2 | h2 | h2
          · simp [cmpPath, hsu]
          · rw [cmpPath, hsu] at hqr
            rw [cmpPath, hsu]
            exact ih hpq hqr
          · rw [cmpPath, hsu] at hqr; cases hqr
        · rw [cmpPath, hst] at hpq; cases hpq

/-- The non-strict path order unfolded to a disequality on comparisons. -/
theorem pathLe_iff (p q : List String) : pathLe p q = true ↔ cmpPath p q ≠ .gt := by
  unfold pathLe
  cases cmpPath p q <;> decide

theorem pathLe_total (p q : List String) : pathLe p q = true ∨ pathLe q p = true := by
  rw [pathLe_iff, pathLe_iff]
  have hswap := cmpPath_swap p q
  rcases h : cmpPath p q with h1 | h1 | h1 <;> rw [h] at hswap <;>
    simp [Ordering.swap] at hswap <;> simp [h, hswap]

theorem pathLe_trans {p q r : List String}
    (hpq : pathLe p q = true) (hqr : pathLe q r = true) : pathLe p r = true := by
  rw [pathLe_iff] at hpq hqr ⊢
  rcases h1 : cmpPath p q with hx | hx | hx
  · rcases h2 : cmpPath q r with hy | hy | hy
    · have h3 := cmpPath_lt_trans h1 h2
      simp [h3]
    · have hqeq : q = r := (cmpPath_eq_iff _ _).mp h2
      subst hqeq
      simp [h1]
    · exact absurd h2 hqr
  · have hpeq : p = q := (cmpPath_eq_iff _ _).mp h1
    subst hpeq
    exact hqr
  · exact absurd h1 hpq

theorem pathLe_antisymm {p q : List String}
    (hpq : pathLe p q = true) (hqp : pathLe q p = true) : p = q := by
  rw [pathLe_iff] at hpq hqp
  have hswap := cmpPath_swap p q
  rcases h : cmpPath p q with h1 | h1 | h1
  · rw [h] at hswap
    simp [Ordering.swap] at hswap
    exact absurd hswap hqp
  · exact (cmpPath_eq_iff _ _).mp h
  · exact absurd h hpq

instance : IsTotal (List String) (fun p q => pathLe p q = true) :=
  ⟨pathLe_total⟩

instance : IsTrans (List String) (fun p q => pathLe p q = true) :=
  ⟨fun _ _ _ => pathLe_trans⟩

instance : IsAntisymm (List String) (fun p q => pathLe p q = true) :=
  ⟨fun _ _ => pathLe_antisymm⟩

/-- The sort used by the locator produces a list sorted by the path order. -/
theorem sortPaths_sorted (l : List (List String)) :
    List.Sorted (fun p q => pathLe p q = true) (sortPaths l) :=
  List.sorted_insertionSort _ l

/-- The sort is a permutation of its input. -/
theorem sortPaths_perm (l : List (List String)) : (sortPaths l).Perm l :=
  List.perm_insertionSort _ l

/-- Sorting depends only on the multiset of paths: permuted inputs sort to
the same list. -/
theorem sortPaths_eq_of_perm {l1 l2 : List (List String)} (h : l1.Perm l2) :
    sortPaths l1 = sortPaths l2 :=
  List.eq_of_perm_of_sorted
    (((sortPaths_perm l1).trans h).trans (sortPaths_perm l2).symm)
    (sortPaths_sorted l1) (sortPaths_sorted l2)

/-! ## Locator lemmas -/

/-- Every successful locator result is a sorted copy of some collected
list: each success branch of `find_parquet_files` ends in `sortPaths`. -/
theorem locator_ok_sorted {rootPath : List String} {root : RootNode} {recursive : Bool}
    {files : List (List String)}
    (h : find_parquet_files rootPath root recursive = .ok files) :
    ∃ l, files = sortPaths l := by
  cases root with
  | missing => cases h
  | file =>
    by_cases hf : is_parquet_file rootPath
    · refine ⟨[rootPath], ?_⟩
      simp [find_parquet_files, hf] at h
      exact h.symm
    · simp [find_parquet_files, hf] at h
  | dir entries =>
    refine ⟨collectParquet rootPath entries recursive, ?_⟩
    simp only [find_parquet_files, Except.ok.injEq] at h
    exact h.symm
  | special =>
    refine ⟨[], ?_⟩
    simp only [find_parquet_files, Except.ok.injEq] at h
    exact h.symm

/-- On a directory root the locator returns the sorted collected list. -/
theorem find_parquet_files_dir (rootPath : List String) (entries : List DirEntry)
    (recursive : Bool) :
    find_parquet_files rootPath (.dir entries) recursive
      = .ok (sortPaths (collectParquet rootPath entries recursive)) := rfl

/-! ## Engine lemmas -/

/-- The validation loop succeeds exactly when every remaining file's
schema is compatible with the canonical one. -/
theorem validate_rest_ok_iff {α : Type} (canonical : Schema) (fs : List (ParquetFile α))
    (pos : Nat) :
    validate_rest canonical fs pos = .ok () ↔
      ∀ f ∈ fs, schemas_compatible canonical f.schema = true := by
  induction fs generalizing pos with
  | nil => simp [validate_rest]
  | cons f fs ih =>
    by_cases hc : schemas_compatible canonical f.schema = true
    · simp [validate_rest, hc, ih (pos + 1)]
    · simp [validate_rest, hc]

/-- The validation loop stops at the first incompatible file and reports
its position. -/
theorem validate_rest_first_bad {α : Type} (canonical : Schema) (fs : List (ParquetFile α))
    (pos : Nat) (i : Nat) (hi : i < fs.length)
    (hbad : schemas_compatible canonical (fs.get ⟨i, hi⟩).schema = false)
    (hfirst : ∀ j (hj : j < i),
      schemas_compatible canonical (fs.get ⟨j, Nat.lt_trans hj hi⟩).schema = true) :
    validate_rest canonical fs pos
      = .error (.schemaMismatch (pos + i) canonical (fs.get ⟨i, hi⟩).schema) := by
  induction fs generalizing pos i with
  | nil => cases hi
  | cons f fs ih =>
    cases i with
    | zero =>
      simp only [List.get] at hbad
      simp [validate_rest, hbad]
    | succ i' =>
      have hc : schemas_compatible canonical f.schema = true := hfirst 0 (Nat.succ_pos i')
      have hi' : i' < fs.length := Nat.lt_of_succ_lt_succ hi
      have hstep := ih (pos + 1) i' hi'
        (by simpa using hbad)
        (fun j hj => by simpa using hfirst (j + 1) (Nat.succ_lt_succ hj))
      simp only [validate_rest, hc, if_true]
      rw [hstep]
      have harith : pos + 1 + i' = pos + (i' + 1) := by omega
      simp [harith]

/-- Closed form of `process_single_file`: the file's batches are appended
to the writer in order, and the row count is the file's row count. -/
theorem process_single_file_eq {α : Type} (f : ParquetFile α) (writer : List (List α)) :
    process_single_file f writer = (writer ++ f.batches, rowCount f) := by
  unfold process_single_file rowCount
  have key : ∀ (batches : List (List α)) (w : List (List α)) (n : Nat),
      batches.foldl (fun acc batch => (acc.1 ++ [batch], acc.2 + batch.length)) (w, n)
        = (w ++ batches, n + (batches.map List.length).sum) := by
    intro batches
    induction batches with
    | nil => intro w n; simp
    | cons b bs ih =>
      intro w n
      rw [List.foldl_cons, ih]
      simp [List.append_assoc]
      omega
  simpa using key f.batches writer 0

/-- Closed form of the streaming fold of `consolidate_parquet_files`. -/
theorem stream_fold {α : Type} (files : List (ParquetFile α)) (acc : List (List α) × Nat) :
    files.foldl
        (fun acc f =>
          let r := process_single_file f acc.1
          (r.1, acc.2 + r.2))
        acc
      = (acc.1 ++ (files.map (fun f => f.batches)).flatten,
         acc.2 + (files.map rowCount).sum) := by
  induction files generalizing acc with
  | nil => simp
  | cons f fs ih =>
    rw [List.foldl_cons, process_single_file_eq, ih]
    simp [List.append_assoc]
    omega

/-- Closed form of a successful consolidation run. -/
theorem consolidate_ok {α : Type} (f0 : ParquetFile α) (rest : List (ParquetFile α))
    (hcomp : ∀ f ∈ rest, schemas_compatible f0.schema f.schema = true) :
    consolidate_parquet_files (f0 :: rest) =
      { result := .ok (), outputCreated := true, outputSchema := some f0.schema,
        outputBatches := ((f0 :: rest).map (fun f => f.batches)).flatten,
        outputClosed := true,
        totalRows := ((f0 :: rest).map rowCount).sum } := by
  have hval : validate_rest f0.schema rest 1 = .ok () :=
    (validate_rest_ok_iff f0.schema rest 1).mpr hcomp
  unfold consolidate_parquet_files
  simp only [List.isEmpty_cons, if_false, Bool.false_eq_true]
  rw [show get_and_validate_schema (f0 :: rest) = .ok f0.schema by
    simp [get_and_validate_schema, hval]]
  rw [stream_fold]
  simp

/-- Sum of row counts equals the number of rows in the written batches. -/
theorem sum_lengths_flatten {α : Type} (files : List (ParquetFile α)) :
    (((files.map (fun f => f.batches)).flatten.map List.length).sum)
      = (files.map rowCount).sum := by
  induction files with
  | nil => simp
  | cons f fs ih =>
    simp only [List.map_cons, List.flatten_cons, List.map_append, List.sum_append,
      List.sum_cons, ih, rowCount]

/-- Flattening the written batches yields the concatenation of each
file's own flattened rows. -/
theorem flatten_flatten_rows {α : Type} (files : List (ParquetFile α)) :
    ((files.map (fun f => f.batches)).flatten).flatten
      = (files.map (fun f => f.batches.flatten)).flatten := by
  induction files with
  | nil => simp
  | cons f fs ih => simp [ih]

/-- A pair drawn from a list zipped with itself has equal components. -/
theorem mem_zip_self {β : Type} {l : List β} {p : β × β} (hp : p ∈ l.zip l) : p.1 = p.2 := by
  induction l with
  | nil => cases hp
  | cons x xs ih =>
    rw [List.zip_cons_cons] at hp
    rcases List.mem_cons.mp hp with hp | hp
    · rw [hp]
    · exact ih hp

/-- `schemas_compatible` is reflexive. -/
theorem schemas_compatible_refl (s : Schema) : schemas_compatible s s = true := by
  unfold schemas_compatible
  simp only [bne_self_eq_false, Bool.false_eq_true, if_false, List.all_eq_true]
  intro fp hfp
  have heq := mem_zip_self hfp
  rw [heq]
  simp

/-! ## Claim theorems -/

/-- C6: for every root path that does not exist on the filesystem,
`find_parquet_files` fails with the path-not-found error rather than
returning a result. -/
theorem find_parquet_files_missing_root (rootPath : List String) (recursive : Bool) :
    find_parquet_files rootPath .missing recursive = .error .pathNotFound := rfl

/-- C8: for a root path that is a regular file, `find_parquet_files`
returns the singleton of that path when its extension, lower-cased,
equals `"parquet"`, and otherwise fails with the not-target-format
error. -/
theorem find_parquet_files_file_root (rootPath : List String) (recursive : Bool) :
    find_parquet_files rootPath .file recursive =
      (match path_extension rootPath with
       | some e =>
         if lowerString e == "parquet" then Except.ok [rootPath]
         else Except.error LocateError.notTargetFormat
       | none => Except.error LocateError.notTargetFormat) := by
  have hstep : find_parquet_files rootPath .file recursive =
      (if is_parquet_file rootPath then Except.ok [rootPath]
       else Except.error LocateError.notTargetFormat) := by
    by_cases hf : is_parquet_file rootPath
    · simp only [find_parquet_files, hf, if_true]
      rfl
    · simp [find_parquet_files, hf]
  rw [hstep]
  unfold is_parquet_file
  rcases h : path_extension rootPath with _ | e
  · simp
  · by_cases hb : (lowerString e == "parquet") = true <;> simp [hb]

/-- C10: every path in a successful `find_parquet_files` result, for any
root and either recursive flag, satisfies `is_parquet_file`. -/
theorem find_parquet_files_only_parquet (rootPath : List String) (root : RootNode)
    (recursive : Bool) (files : List (List String))
    (h : find_parquet_files rootPath root recursive = .ok files) :
    ∀ p ∈ files, is_parquet_file p = true := by
  intro p hp
  cases root with
  | missing => cases h
  | file =>
    by_cases hf : is_parquet_file rootPath
    · simp only [find_parquet_files, hf, if_true, Except.ok.injEq] at h
      rw [← h] at hp
      have : p ∈ [rootPath] := ((sortPaths_perm [rootPath]).mem_iff).mp hp
      rcases List.mem_singleton.mp this with rfl
      exact hf
    · simp [find_parquet_files, hf] at h
  | dir entries =>
    rw [find_parquet_files_dir] at h
    have hfiles := Except.ok.inj h
    rw [← hfiles] at hp
    have hcoll : p ∈ collectParquet rootPath entries recursive :=
      ((sortPaths_perm _).mem_iff).mp hp
    unfold collectParquet at hcoll
    rcases List.mem_map.mp hcoll with ⟨e, he, rfl⟩
    have hpred := (List.mem_filter.mp he).2
    simp only [Bool.and_eq_true] at hpred
    exact hpred.2
  | special =>
    simp only [find_parquet_files, Except.ok.injEq] at h
    rw [← h] at hp
    cases hp

/-- C9: for a fixed directory tree, every path of the non-recursive
locator result also appears in the recursive result. -/
theorem find_parquet_files_recursive_superset (rootPath : List String) (root : RootNode)
    (filesN filesR : List (List String))
    (hn : find_parquet_files rootPath root false = .ok filesN)
    (hr : find_parquet_files rootPath root true = .ok filesR) :
    ∀ p ∈ filesN, p ∈ filesR := by
  intro p hp
  cases root with
  | missing => cases hn
  | file =>
    by_cases hf : is_parquet_file rootPath
    · simp only [find_parquet_files, hf, if_true, Except.ok.injEq] at hn hr
      rw [← hn] at hp
      rw [← hr]
      exact hp
    · simp [find_parquet_files, hf] at hn
  | dir entries =>
    rw [find_parquet_files_dir] at hn hr
    have hfn := Except.ok.inj hn
    have hfr := Except.ok.inj hr
    rw [← hfn] at hp
    rw [← hfr]
    have hcoll : p ∈ collectParquet rootPath entries false :=
      ((sortPaths_perm _).mem_iff).mp hp
    have hgoal : p ∈ collectParquet rootPath entries true := by
      unfold collectParquet at hcoll ⊢
      simp only [if_true, if_false] at hcoll ⊢
      rcases List.mem_map.mp hcoll with ⟨e, he, rfl⟩
      have hmem1 := (List.mem_filter.mp he).1
      have hpred := (List.mem_filter.mp he).2
      have hentry : e ∈ entries := (List.mem_filter.mp hmem1).1
      exact List.mem_map.mpr ⟨e, List.mem_filter.mpr ⟨hentry, hpred⟩, rfl⟩
    exact ((sortPaths_perm _).mem_iff).mpr hgoal
  | special =>
    simp only [find_parquet_files, Except.ok.injEq] at hn
    rw [← hn] at hp
    cases hp

/-- C5: every successful `find_parquet_files` result is sorted by the
lexicographic path order, and on a directory root the result does not
depend on the filesystem enumeration order: two enumerations of the same
tree that are permutations of one another give identical results. -/
theorem find_parquet_files_sorted_deterministic :
    (∀ (rootPath : List String) (root : RootNode) (recursive : Bool)
        (files : List (List String)),
        find_parquet_files rootPath root recursive = .ok files →
        List.Sorted (fun p q => pathLe p q = true) files)
    ∧ (∀ (rootPath : List String) (es1 es2 : List DirEntry) (recursive : Bool),
        es1.Perm es2 →
        find_parquet_files rootPath (.dir es1) recursive
          = find_parquet_files rootPath (.dir es2) recursive) := by
  constructor
  · intro rootPath root recursive files h
    obtain ⟨l, hl⟩ := locator_ok_sorted h
    rw [hl]
    exact sortPaths_sorted l
  · intro rootPath es1 es2 recursive hperm
    rw [find_parquet_files_dir, find_parquet_files_dir]
    have hcoll : (collectParquet rootPath es1 recursive).Perm
        (collectParquet rootPath es2 recursive) := by
      unfold collectParquet
      cases recursive with
      | true => simpa using List.Perm.map _ (List.Perm.filter _ hperm)
      | false => simpa using List.Perm.map _ (List.Perm.filter _ (List.Perm.filter _ hperm))
    rw [sortPaths_eq_of_perm hcoll]

/-- Witness for C5 at a concrete tree and a concrete reordering of its
enumeration. -/
theorem find_parquet_files_sorted_deterministic_witness :
    List.Sorted (fun p q => pathLe p q = true)
        [["r", "a.parquet"], ["r", "b.parquet"], ["r", "sub", "c.parquet"]]
    ∧ find_parquet_files ["r"] (.dir exEntries) true
        = find_parquet_files ["r"] (.dir exEntriesShuffled) true :=
  ⟨find_parquet_files_sorted_deterministic.1 ["r"] (.dir exEntries) true
      [["r", "a.parquet"], ["r", "b.parquet"], ["r", "sub", "c.parquet"]] (by decide),
   find_parquet_files_sorted_deterministic.2 ["r"] exEntries exEntriesShuffled true
      (by decide)⟩

/-- Witness for C9 at a concrete tree. -/
theorem find_parquet_files_recursive_superset_witness :
    ["r", "a.parquet"] ∈ [["r", "a.parquet"], ["r", "b.parquet"], ["r", "sub", "c.parquet"]] :=
  find_parquet_files_recursive_superset ["r"] (.dir exEntries)
    [["r", "a.parquet"], ["r", "b.parquet"]]
    [["r", "a.parquet"], ["r", "b.parquet"], ["r", "sub", "c.parquet"]]
    (by decide) (by decide) ["r", "a.parquet"] (by decide)

/-- Witness for C10 at a concrete tree. -/
theorem find_parquet_files_only_parquet_witness :
    is_parquet_file ["r", "a.parquet"] = true :=
  find_parquet_files_only_parquet ["r"] (.dir exEntries) false
    [["r", "a.parquet"], ["r", "b.parquet"]] (by decide) ["r", "a.parquet"] (by decide)

/-- C7: on the empty input list, `consolidate_parquet_files` fails with
the empty-input error, creates no output file and writes nothing. -/
theorem consolidate_empty_input (α : Type) :
    consolidate_parquet_files ([] : List (ParquetFile α)) =
      { result := .error .emptyInput, outputCreated := false, outputSchema := none,
        outputBatches := [], outputClosed := false, totalRows := 0 } := rfl

/-- C1 as stated is false: the return value of a successful
`consolidate_parquet_files` run is `Ok(())`, not the total row count —
two runs whose total row counts differ (2 and 5) return the identical
value. -/
theorem consolidate_result_not_rowcount_counterexample :
    (consolidate_parquet_files [exFileA]).result = Except.ok ()
    ∧ (consolidate_parquet_files [exFileB]).result = Except.ok ()
    ∧ (consolidate_parquet_files [exFileA]).result
        = (consolidate_parquet_files [exFileB]).result
    ∧ (consolidate_parquet_files [exFileA]).totalRows = 2
    ∧ (consolidate_parquet_files [exFileB]).totalRows = 5 :=
  ⟨rfl, rfl, rfl, rfl, rfl⟩

/-- C1 amended: on a non-empty input list whose schemas are all
compatible with the first file's, `consolidate_parquet_files` succeeds
returning unit, and the total row count it accumulates (and prints under
verbose) equals the sum of the row counts of all input files in input
order, which is also the number of rows written to the output. -/
theorem consolidate_accumulates_total_rows {α : Type} (f0 : ParquetFile α)
    (rest : List (ParquetFile α))
    (hcomp : ∀ f ∈ rest, schemas_compatible f0.schema f.schema = true) :
    (consolidate_parquet_files (f0 :: rest)).result = .ok ()
    ∧ (consolidate_parquet_files (f0 :: rest)).totalRows
        = ((f0 :: rest).map rowCount).sum
    ∧ (consolidate_parquet_files (f0 :: rest)).totalRows
        = (((consolidate_parquet_files (f0 :: rest)).outputBatches).map List.length).sum := by
  rw [consolidate_ok f0 rest hcomp]
  exact ⟨rfl, rfl, (sum_lengths_flatten (f0 :: rest)).symm⟩

/-- Witness for the amended C1 on two concrete files totalling 7 rows. -/
theorem consolidate_accumulates_total_rows_witness :
    (consolidate_parquet_files [exFileA, exFileB]).result = .ok ()
    ∧ (consolidate_parquet_files [exFileA, exFileB]).totalRows
        = ([exFileA, exFileB].map rowCount).sum
    ∧ (consolidate_parquet_files [exFileA, exFileB]).totalRows
        = (((consolidate_parquet_files [exFileA, exFileB]).outputBatches).map List.length).sum :=
  consolidate_accumulates_total_rows exFileA [exFileB] (by decide)

/-- C2: when the file at position `i + 1` (so position `k > 0`) of the
input list is the first whose schema is incompatible with the canonical
schema of the first file, `consolidate_parquet_files` fails with a
schema-mismatch error carrying that position, and the output is never
created and nothing is written. -/
theorem consolidate_fail_fast_schema_mismatch {α : Type} (f0 : ParquetFile α)
    (rest : List (ParquetFile α)) (i : Nat) (hi : i < rest.length)
    (hbad : schemas_compatible f0.schema (rest.get ⟨i, hi⟩).schema = false)
    (hfirst : ∀ j (hj : j < i),
      schemas_compatible f0.schema (rest.get ⟨j, Nat.lt_trans hj hi⟩).schema = true) :
    (consolidate_parquet_files (f0 :: rest)).result
        = .error (.schemaMismatch (i + 1) f0.schema (rest.get ⟨i, hi⟩).schema)
    ∧ (consolidate_parquet_files (f0 :: rest)).outputCreated = false
    ∧ (consolidate_parquet_files (f0 :: rest)).outputSchema = none
    ∧ (consolidate_parquet_files (f0 :: rest)).outputBatches = [] := by
  have hval := validate_rest_first_bad f0.schema rest 1 i hi hbad hfirst
  have hget : get_and_validate_schema (f0 :: rest)
      = .error (.schemaMismatch (i + 1) f0.schema (rest.get ⟨i, hi⟩).schema) := by
    rw [show (1 : Nat) + i = i + 1 from Nat.add_comm 1 i] at hval
    simp [get_and_validate_schema, hval]
  unfold consolidate_parquet_files
  rw [hget]
  simp

/-- Witness for C2: the third concrete file (position 2) has the added
column and is the first mismatch. -/
theorem consolidate_fail_fast_schema_mismatch_witness :
    (consolidate_parquet_files [exFileA, exFileB, exFileExtra]).result
        = .error (.schemaMismatch 2 exFileA.schema exFileExtra.schema)
    ∧ (consolidate_parquet_files [exFileA, exFileB, exFileExtra]).outputCreated = false
    ∧ (consolidate_parquet_files [exFileA, exFileB, exFileExtra]).outputSchema = none
    ∧ (consolidate_parquet_files [exFileA, exFileB, exFileExtra]).outputBatches = [] :=
  consolidate_fail_fast_schema_mismatch exFileA [exFileB, exFileExtra] 1
    (by decide) (by decide) (by decide)

/-- C3: on a non-empty compatible input list the output batch sequence is
the concatenation of each input file's batch list in input order, and the
output row sequence is the concatenation of each input file's own row
sequence in input order. -/
theorem consolidate_order_preservation {α : Type} (f0 : ParquetFile α)
    (rest : List (ParquetFile α))
    (hcomp : ∀ f ∈ rest, schemas_compatible f0.schema f.schema = true) :
    (consolidate_parquet_files (f0 :: rest)).outputBatches
        = ((f0 :: rest).map (fun f => f.batches)).flatten
    ∧ (consolidate_parquet_files (f0 :: rest)).outputBatches.flatten
        = ((f0 :: rest).map (fun f => f.batches.flatten)).flatten := by
  rw [consolidate_ok f0 rest hcomp]
  exact ⟨rfl, flatten_flatten_rows (f0 :: rest)⟩

/-- Witness for C3 on two concrete files. -/
theorem consolidate_order_preservation_witness :
    (consolidate_parquet_files [exFileA, exFileB]).outputBatches
        = ([exFileA, exFileB].map (fun f => f.batches)).flatten
    ∧ (consolidate_parquet_files [exFileA, exFileB]).outputBatches.flatten
        = ([exFileA, exFileB].map (fun f => f.batches.flatten)).flatten :=
  consolidate_order_preservation exFileA [exFileB] (by decide)

/-- Unfolding of the compatibility check over a pair of leading fields. -/
theorem schemas_compatible_cons (f g : Field) (s t : Schema) :
    schemas_compatible (f :: s) (g :: t)
      = ((f.name == g.name) && (f.dataType == g.dataType) && schemas_compatible s t) := by
  by_cases hl : s.length = t.length
  · simp [schemas_compatible, hl, Bool.and_assoc]
  · have hl' : ¬ (s.length + 1 = t.length + 1) := by omega
    simp [schemas_compatible, hl, hl']

/-- The compatibility check, position by position: equal length and per
position equal name and logical type. -/
theorem schemas_compatible_iff (s1 s2 : Schema) :
    schemas_compatible s1 s2 = true ↔
      (s1.length = s2.length ∧ ∀ i (h1 : i < s1.length) (h2 : i < s2.length),
        (s1.get ⟨i, h1⟩).name = (s2.get ⟨i, h2⟩).name
        ∧ (s1.get ⟨i, h1⟩).dataType = (s2.get ⟨i, h2⟩).dataType) := by
  induction s1 generalizing s2 with
  | nil =>
    cases s2 with
    | nil => simp [schemas_compatible]
    | cons g t => simp [schemas_compatible]
  | cons f s ih =>
    cases s2 with
    | nil => simp [schemas_compatible]
    | cons g t =>
      rw [schemas_compatible_cons]
      simp only [Bool.and_eq_true, beq_iff_eq, ih]
      constructor
      · rintro ⟨⟨hn, hd⟩, hlen, hall⟩
        refine ⟨by simp [hlen], ?_⟩
        intro i h1 h2
        cases i with
        | zero => exact ⟨hn, hd⟩
        | succ i' =>
          exact hall i' (Nat.lt_of_succ_lt_succ h1) (Nat.lt_of_succ_lt_succ h2)
      · rintro ⟨hlen, hall⟩
        simp only [List.length_cons] at hlen
        have h0 := hall 0 (Nat.succ_pos _) (Nat.succ_pos _)
        refine ⟨⟨h0.1, h0.2⟩, by omega, ?_⟩
        intro i h1 h2
        exact hall (i + 1) (Nat.succ_lt_succ h1) (Nat.succ_lt_succ h2)

/-- C4: the compatibility check holds iff the two schemas have equal
length and at every position exactly equal field name and logical type;
and a successful consolidation implies every input file's schema is
compatible with the canonical one — any mismatch makes the run fail
instead of unifying or promoting types. -/
theorem schemas_compatible_strict_equality :
    (∀ s1 s2 : Schema, schemas_compatible s1 s2 = true ↔
        (s1.length = s2.length ∧ ∀ i (h1 : i < s1.length) (h2 : i < s2.length),
          (s1.get ⟨i, h1⟩).name = (s2.get ⟨i, h2⟩).name
          ∧ (s1.get ⟨i, h1⟩).dataType = (s2.get ⟨i, h2⟩).dataType))
    ∧ (∀ (files : List (ParquetFile Nat)) (f0 g : ParquetFile Nat),
        files.head? = some f0 → g ∈ files →
        (consolidate_parquet_files files).result = .ok () →
        schemas_compatible f0.schema g.schema = true) := by
  refine ⟨schemas_compatible_iff, ?_⟩
  intro files f0 g hhead hmem hok
  cases files with
  | nil => cases hhead
  | cons h0 rest =>
    have hf0 : h0 = f0 := Option.some.inj hhead
    subst hf0
    rcases List.mem_cons.mp hmem with rfl | hmem'
    · exact schemas_compatible_refl _
    · cases hv : validate_rest h0.schema rest 1 with
      | ok u =>
        cases u
        exact ((validate_rest_ok_iff h0.schema rest 1).mp hv) g hmem'
      | error e =>
        exfalso
        unfold consolidate_parquet_files at hok
        simp [get_and_validate_schema, hv] at hok

/-- Witness for C4: the characterization applied to the concrete test
schema, and the success-implies-compatible direction on two concrete
files. -/
theorem schemas_compatible_strict_equality_witness :
    schemas_compatible exFileA.schema exFileB.schema = true :=
  schemas_compatible_strict_equality.2 [exFileA, exFileB] exFileA exFileB rfl
    (by decide) rfl

end PQ
